import Mathlib

/-!
Verification of the monorepo change-impact engine (`pac.py` plus helpers).

The development shallowly embeds the program's data model and operations:
pure functions become Lean functions, raised exceptions become `Except`
errors, the filesystem touched by the cleanup wrapper becomes an explicit
file-state value, and the unbounded `while` loops of the source become
fuel-indexed functions (returning `none` when the fuel is exhausted, which
models an execution still running after that many rounds).
-/

/-! ## Exceptions and the cleanup wrapper (`cleanup`, `pac.py` lines 84-96) -/

/-- Kinds of exception classes raised by the program. -/
inductive ExcKind where
  | runtimeError
  | runtimeWarning
  | valueError
  | indexError
deriving DecidableEq

/-- A raised Python exception: either constructed from a message, or, as in
`raise RuntimeError(e)`, constructed from another exception. -/
inductive PyExc where
  | exc (kind : ExcKind) (msg : String)
  | wrap (kind : ExcKind) (inner : PyExc)
deriving DecidableEq

/-- The dynamic class of an exception, which is all a caller can dispatch on. -/
def PyExc.kindOf : PyExc → ExcKind
  | .exc k _ => k
  | .wrap k _ => k

/-- The filesystem as seen through `os.path.isfile`: which names exist. -/
def FileState : Type := String → Bool

/-- Generated build descriptor name (`AUTOGEN_SETUP_PY`). -/
def AUTOGEN_SETUP_PY : String := "setup.py"

/-- Generated requirement input name (`AUTOGEN_REQ_INI`). -/
def AUTOGEN_REQ_INI : String := "requirements.ini"

/-- Compiled lock file name (`AUTOGEN_REQ_TXT`). -/
def AUTOGEN_REQ_TXT : String := "requirements.txt"

/-- One iteration of the cleanup loop body:
`if os.path.isfile(file): os.remove(file)`. -/
def removeIfExists (fs : FileState) (file : String) : FileState :=
  if fs file then (fun f => if f = file then false else fs f) else fs

/-- The `finally` block of `cleanup`: remove each generated artifact that
exists, in the order of the source's list literal. -/
def cleanupFiles (fs : FileState) : FileState :=
  [AUTOGEN_REQ_INI, AUTOGEN_REQ_TXT, AUTOGEN_SETUP_PY].foldl removeIfExists fs

/-- The `cleanup` decorator: run the wrapped command (modelled as a function
from a file state to an outcome and a new file state); on an exception
re-raise it wrapped in `RuntimeError`; in all cases run the `finally`
block removing the generated artifacts. -/
def cleanupWrap (run : FileState → Except PyExc Unit × FileState)
    (fs : FileState) : Except PyExc Unit × FileState :=
  match run fs with
  | (.ok a, fs1) => (.ok a, cleanupFiles fs1)
  | (.error e, fs1) => (.error (PyExc.wrap .runtimeError e), cleanupFiles fs1)

theorem removeIfExists_self (fs : FileState) (f : String) :
    removeIfExists fs f f = false := by
  unfold removeIfExists
  by_cases h : fs f = true
  · simp [h]
  · simp only [Bool.not_eq_true] at h
    simp [h]

theorem removeIfExists_other (fs : FileState) (f g : String) (h : g ≠ f) :
    removeIfExists fs f g = fs g := by
  unfold removeIfExists
  by_cases hf : fs f = true
  · simp [hf, h]
  · simp only [Bool.not_eq_true] at hf
    simp [hf]

theorem cleanupFiles_removes (fs : FileState) :
    cleanupFiles fs AUTOGEN_SETUP_PY = false ∧
    cleanupFiles fs AUTOGEN_REQ_INI = false ∧
    cleanupFiles fs AUTOGEN_REQ_TXT = false := by
  unfold cleanupFiles
  simp only [List.foldl]
  refine ⟨removeIfExists_self _ _, ?_, ?_⟩
  · rw [removeIfExists_other _ _ _ (by decide),
      removeIfExists_other _ _ _ (by decide)]
    exact removeIfExists_self _ _
  · rw [removeIfExists_other _ _ _ (by decide)]
    exact removeIfExists_self _ _

/-- C4: on every exit path of a wrapped pipeline run — normal completion or
any raised exception — each generated ephemeral artifact (`setup.py`,
`requirements.ini`, `requirements.txt`) is absent from the file state when
the run exits. -/
theorem artifacts_removed_on_every_path
    (run : FileState → Except PyExc Unit × FileState) (fs : FileState) :
    (cleanupWrap run fs).2 AUTOGEN_SETUP_PY = false ∧
    (cleanupWrap run fs).2 AUTOGEN_REQ_INI = false ∧
    (cleanupWrap run fs).2 AUTOGEN_REQ_TXT = false := by
  unfold cleanupWrap
  rcases hr : run fs with ⟨r, fs1⟩
  cases r <;> simpa using cleanupFiles_removes fs1

/-- C10: whenever the wrapped command raises any exception, the cleanup
wrapper re-raises it wrapped as a `RuntimeError`, so the caller observes the
kind `runtimeError` no matter what the original kind was. -/
theorem error_kinds_collapsed
    (run : FileState → Except PyExc Unit × FileState) (fs : FileState)
    (e : PyExc) (h : (run fs).1 = .error e) :
    (cleanupWrap run fs).1 = .error (PyExc.wrap .runtimeError e) ∧
    PyExc.kindOf (PyExc.wrap .runtimeError e) = .runtimeError := by
  unfold cleanupWrap
  rcases hr : run fs with ⟨r, fs1⟩
  rw [hr] at h
  simp only at h
  subst h
  exact ⟨rfl, rfl⟩

/-- A sample failing step used to instantiate `error_kinds_collapsed`. -/
def sampleFailingRun : FileState → Except PyExc Unit × FileState :=
  fun fs => (.error (PyExc.exc .valueError "boom"), fs)

/-- A sample file state where all three artifacts exist. -/
def sampleFs : FileState := fun f =>
  f = AUTOGEN_SETUP_PY || f = AUTOGEN_REQ_INI || f = AUTOGEN_REQ_TXT

theorem error_kinds_collapsed_witness :
    (cleanupWrap sampleFailingRun sampleFs).1 =
      .error (PyExc.wrap .runtimeError (PyExc.exc .valueError "boom")) ∧
    PyExc.kindOf (PyExc.wrap .runtimeError (PyExc.exc .valueError "boom")) =
      .runtimeError :=
  error_kinds_collapsed sampleFailingRun sampleFs
    (PyExc.exc .valueError "boom") rfl

/-! ## Version bump resolution (`VERSION_BUMP_RE`, `_get_next_version`,
`ModifiedPackage.__init__`, `pac.py` lines 13-15 and 99-128)

Strings are handled through their character lists. `re.match` anchors at the
start only, so each regex alternative is modelled as a prefix match; since a
literal `.` follows each `\d+`, the backtracking regex engine necessarily
matches the maximal leading digit run, which `takeWhile` captures. -/

/-- Test for a decimal digit character, written `\d` in the source regexes. -/
def isDigitC (c : Char) : Bool := c.isDigit

/-- Decimal digit characters. -/
def digitChar (d : Nat) : Char := Char.ofNat (48 + d)

/-- Decimal rendering of a natural number (Python `str` of a nonnegative
`int`), with an accumulator and explicit fuel; fuel `n + 1` always suffices. -/
def natToCharsAux : Nat → Nat → List Char → List Char
  | 0, _, acc => acc
  | fuel + 1, n, acc =>
    if n < 10 then digitChar n :: acc
    else natToCharsAux fuel (n / 10) (digitChar (n % 10) :: acc)

/-- Decimal rendering of a natural number. -/
def natToChars (n : Nat) : List Char := natToCharsAux (n + 1) n []

/-- Python `int()` restricted to the nonempty all-digit strings that version
components consist of. -/
def parseDigits (l : List Char) : Option Nat :=
  if l ≠ [] ∧ l.all isDigitC then
    some (l.foldl (fun a c => a * 10 + (c.toNat - 48)) 0)
  else none

/-- Python `str.split(".")` on character lists. -/
def splitOnDot : List Char → List (List Char)
  | [] => [[]]
  | c :: rest =>
    if c = '.' then [] :: splitOnDot rest
    else
      match splitOnDot rest with
      | [] => [[c]]
      | g :: gs => (c :: g) :: gs

/-- Prefix match of the alternative `(?P<major>\*)`. -/
def matchMajorB (s : List Char) : Bool :=
  match s with
  | c :: _ => c = '*'
  | [] => false

/-- Prefix match of the alternative `(?P<minor>\d+\.\*)`. -/
def matchMinorB (s : List Char) : Bool :=
  !(s.takeWhile isDigitC).isEmpty &&
  (match s.dropWhile isDigitC with
   | '.' :: '*' :: _ => true
   | _ => false)

/-- Prefix match of the alternative `(?P<patch>\d+\.\d+\.\*)`. -/
def matchPatchB (s : List Char) : Bool :=
  !(s.takeWhile isDigitC).isEmpty &&
  (match s.dropWhile isDigitC with
   | '.' :: r2 =>
     !(r2.takeWhile isDigitC).isEmpty &&
     (match r2.dropWhile isDigitC with
      | '.' :: '*' :: _ => true
      | _ => false)
   | _ => false)

/-- Which named group of `VERSION_BUMP_RE` matched. -/
inductive BumpKind where
  | major
  | minor
  | patch
deriving DecidableEq

/-- The result of `VERSION_BUMP_RE.match`: the regex alternation tries the
three alternatives in source order. -/
def matchBump (s : List Char) : Option BumpKind :=
  if matchMajorB s then some .major
  else if matchMinorB s then some .minor
  else if matchPatchB s then some .patch
  else none

/-- The function `_get_next_version`: re-match the bump token, split the old
version on dots into exactly three components, and format the bumped
version; `none` models the exceptions the source would raise on a token
matching no group or on a malformed old version. Note that for minor and
patch bumps the source splices the unparsed leading components back in. -/
def get_next_version (version_constraint old_version : String) : Option String :=
  match matchBump version_constraint.data with
  | none => none
  | some k =>
    match splitOnDot old_version.data with
    | [major, minor, patch] =>
      match k with
      | .major => (parseDigits major).map
          (fun M => String.mk (natToChars (M + 1) ++ '.' :: '0' :: '.' :: '0' :: []))
      | .minor => (parseDigits minor).map
          (fun m => String.mk (major ++ '.' :: natToChars (m + 1) ++ '.' :: '0' :: []))
      | .patch => (parseDigits patch).map
          (fun p => String.mk (major ++ '.' :: minor ++ '.' :: natToChars (p + 1)))
    | _ => none
  

/-- Rendering of a concrete `(major, minor, patch)` version as a string. -/
def renderVersion (M m p : Nat) : String :=
  String.mk (natToChars M ++ '.' :: (natToChars m ++ '.' :: natToChars p))

/-- The error message raised by `ModifiedPackage.__init__` on a version
string that is not a fuzzy bump token (the source formats a longer help
text; only its identity matters here). -/
def NO_MANUL_BUMP_VERSION_ERROR (name : String) : String :=
  "No manual version bump found in your toml file for package " ++ name

/-- A resolved changed package: name, old version, resolved next version. -/
structure ModifiedPkg where
  name : String
  old_version : String
  next_version : String
deriving DecidableEq

/-- The constructor `ModifiedPackage.__init__`: reject a version string that
`VERSION_BUMP_RE` does not match, otherwise resolve the next version. -/
def ModifiedPkg.create (name version old_version : String) :
    Except String ModifiedPkg :=
  if matchBump version.data = none then
    .error (NO_MANUL_BUMP_VERSION_ERROR name)
  else
    match get_next_version version old_version with
    | some nv => .ok ⟨name, old_version, nv⟩
    | none => .error ("Modified package " ++ name ++ " has a malformed old version")

theorem natToCharsAux_acc (fuel : Nat) :
    ∀ n acc, natToCharsAux fuel n acc = natToCharsAux fuel n [] ++ acc := by
  induction fuel with
  | zero => intro n acc; rfl
  | succ f ih =>
    intro n acc
    by_cases h : n < 10
    · simp [natToCharsAux, h]
    · simp only [natToCharsAux, if_neg h]
      rw [ih (n / 10) (digitChar (n % 10) :: acc), ih (n / 10) [digitChar (n % 10)]]
      simp

theorem digitChar_isDigit (d : Nat) (h : d < 10) : isDigitC (digitChar d) = true := by
  interval_cases d <;> decide

theorem digitChar_val (d : Nat) (h : d < 10) : (digitChar d).toNat - 48 = d := by
  interval_cases d <;> decide

theorem isDigitC_ne_dot (c : Char) (h : isDigitC c = true) : c ≠ '.' := by
  intro he; subst he; simp [isDigitC] at h

theorem natToCharsAux_digits (fuel : Nat) :
    ∀ n, ∀ c ∈ natToCharsAux fuel n [], isDigitC c = true := by
  induction fuel with
  | zero => intro n c hc; simp [natToCharsAux] at hc
  | succ f ih =>
    intro n c hc
    by_cases h : n < 10
    · simp only [natToCharsAux, if_pos h, List.mem_singleton] at hc
      subst hc; exact digitChar_isDigit n h
    · simp only [natToCharsAux, if_neg h] at hc
      rw [natToCharsAux_acc] at hc
      rcases List.mem_append.mp hc with h1 | h1
      · exact ih (n / 10) c h1
      · rw [List.mem_singleton] at h1
        subst h1
        exact digitChar_isDigit _ (Nat.mod_lt _ (by norm_num))

theorem natToChars_digits (n : Nat) : ∀ c ∈ natToChars n, isDigitC c = true :=
  natToCharsAux_digits (n + 1) n

theorem natToChars_ne_nil (n : Nat) : natToChars n ≠ [] := by
  unfold natToChars natToCharsAux
  by_cases h : n < 10
  · simp [h]
  · simp only [if_neg h]
    rw [natToCharsAux_acc]
    simp

theorem natToCharsAux_foldl (fuel : Nat) :
    ∀ n a, n < 10 ^ fuel →
      (natToCharsAux fuel n []).foldl (fun acc c => acc * 10 + (c.toNat - 48)) a =
        a * 10 ^ (natToCharsAux fuel n []).length + n := by
  induction fuel with
  | zero =>
    intro n a hn
    interval_cases n
    simp [natToCharsAux]
  | succ f ih =>
    intro n a hn
    by_cases h : n < 10
    · simp only [natToCharsAux, if_pos h]
      simp [List.foldl, digitChar_val n h]
    · simp only [natToCharsAux, if_neg h]
      rw [natToCharsAux_acc]
      have hdiv : n / 10 < 10 ^ f := by
        rw [Nat.div_lt_iff_lt_mul (by norm_num)]
        calc n < 10 ^ (f + 1) := hn
        _ = 10 ^ f * 10 := by ring
      rw [List.foldl_append, ih (n / 10) a hdiv]
      simp only [List.foldl, List.length_append, List.length_singleton]
      rw [digitChar_val _ (Nat.mod_lt _ (by norm_num))]
      have : (a * 10 ^ (natToCharsAux f (n / 10) []).length + n / 10) * 10 + n % 10 =
          a * (10 ^ (natToCharsAux f (n / 10) []).length * 10) + (10 * (n / 10) + n % 10) := by
        ring
      rw [this, Nat.div_add_mod]
      ring_nf

theorem parseDigits_natToChars (n : Nat) : parseDigits (natToChars n) = some n := by
  unfold parseDigits
  rw [if_pos]
  · congr 1
    have hb : n < 10 ^ (n + 1) := by
      rcases Nat.eq_zero_or_pos n with h | h
      · subst h; norm_num
      · calc n < 10 ^ n := Nat.lt_pow_self (by norm_num) n
        _ ≤ 10 ^ (n + 1) := Nat.pow_le_pow_right (by norm_num) (Nat.le_succ n)
    unfold natToChars
    rw [natToCharsAux_foldl (n + 1) n 0 hb]
    simp
  · exact ⟨natToChars_ne_nil n, List.all_eq_true.mpr (natToChars_digits n)⟩

theorem splitOnDot_of_no_dot : ∀ l : List Char, (∀ c ∈ l, c ≠ '.') →
    splitOnDot l = [l] := by
  intro l
  induction l with
  | nil => intro _; rfl
  | cons c rest ih =>
    intro h
    have hc : c ≠ '.' := h c (List.mem_cons_self c rest)
    have hrest := ih (fun x hx => h x (List.mem_cons_of_mem c hx))
    simp only [splitOnDot, if_neg hc, hrest]

theorem splitOnDot_append : ∀ l1 l2 : List Char, (∀ c ∈ l1, c ≠ '.') →
    splitOnDot (l1 ++ '.' :: l2) = l1 :: splitOnDot l2 := by
  intro l1
  induction l1 with
  | nil =>
    intro l2 _
    simp [splitOnDot]
  | cons c rest ih =>
    intro l2 h
    have hc : c ≠ '.' := h c (List.mem_cons_self c rest)
    have hrest := ih l2 (fun x hx => h x (List.mem_cons_of_mem c hx))
    simp only [List.cons_append, splitOnDot, if_neg hc, List.append_eq, hrest]

theorem natToChars_no_dot (n : Nat) : ∀ c ∈ natToChars n, c ≠ '.' :=
  fun c hc => isDigitC_ne_dot c (natToChars_digits n c hc)

theorem splitOnDot_renderVersion (M m p : Nat) :
    splitOnDot (renderVersion M m p).data =
      [natToChars M, natToChars m, natToChars p] := by
  have h : (renderVersion M m p).data =
      natToChars M ++ '.' :: (natToChars m ++ '.' :: natToChars p) := rfl
  rw [h, splitOnDot_append _ _ (natToChars_no_dot M),
    splitOnDot_append _ _ (natToChars_no_dot m),
    splitOnDot_of_no_dot _ (natToChars_no_dot p)]

/-- Modelled from the spec's words (section Version of the spec): the single
mechanical increment prescribed for each bump shape. This definition follows
the specification, and the theorem below compares the source's
`get_next_version` against it. -/
def specBumpResult (k : BumpKind) (M m p : Nat) : String :=
  match k with
  | .major => renderVersion (M + 1) 0 0
  | .minor => renderVersion M (m + 1) 0
  | .patch => renderVersion M m (p + 1)

/-- C5: for every valid fuzzy bump token (one the bump regex matches) and
every prior concrete version, bump resolution is deterministic and yields
exactly the mechanical increment for the matched shape: major gives
`(major+1, 0, 0)`, minor gives `(major, minor+1, 0)`, patch gives
`(major, minor, patch+1)`. -/
theorem bump_resolution_deterministic (token : String) (k : BumpKind)
    (M m p : Nat) (h : matchBump token.data = some k) :
    get_next_version token (renderVersion M m p) =
      some (specBumpResult k M m p) := by
  have h0 : natToChars 0 = ['0'] := rfl
  cases k with
  | major =>
    unfold get_next_version
    rw [h, splitOnDot_renderVersion]
    simp only [parseDigits_natToChars, Option.map_some']
    simp [specBumpResult, renderVersion, h0, List.append_assoc]
  | minor =>
    unfold get_next_version
    rw [h, splitOnDot_renderVersion]
    simp only [parseDigits_natToChars, Option.map_some']
    simp [specBumpResult, renderVersion, h0, List.append_assoc]
  | patch =>
    unfold get_next_version
    rw [h, splitOnDot_renderVersion]
    simp only [parseDigits_natToChars, Option.map_some']
    simp [specBumpResult, renderVersion, List.append_assoc]

theorem bump_resolution_deterministic_witness :
    get_next_version "*" "1.2.3" = some "2.0.0" ∧
    get_next_version "1.*" "1.2.3" = some "1.3.0" ∧
    get_next_version "1.2.*" "1.2.3" = some "1.2.4" := by
  refine ⟨?_, ?_, ?_⟩
  · have h := bump_resolution_deterministic "*" .major 1 2 3 (by decide)
    rw [show renderVersion 1 2 3 = "1.2.3" by decide] at h
    rw [h]; decide
  · have h := bump_resolution_deterministic "1.*" .minor 1 2 3 (by decide)
    rw [show renderVersion 1 2 3 = "1.2.3" by decide] at h
    rw [h]; decide
  · have h := bump_resolution_deterministic "1.2.*" .patch 1 2 3 (by decide)
    rw [show renderVersion 1 2 3 = "1.2.3" by decide] at h
    rw [h]; decide

/-- C6: constructing a changed package whose declared version string matches
none of the three fuzzy bump shapes fails with the missing-bump error; no
package value is produced, so there is no silent reuse of the old version. -/
theorem invalid_bump_token_fails (name version old_version : String)
    (h : matchBump version.data = none) :
    ModifiedPkg.create name version old_version =
      .error (NO_MANUL_BUMP_VERSION_ERROR name) := by
  unfold ModifiedPkg.create
  rw [if_pos h]

theorem invalid_bump_token_fails_witness :
    ModifiedPkg.create "alpha" "1.2.3" "1.0.0" =
      .error (NO_MANUL_BUMP_VERSION_ERROR "alpha") :=
  invalid_bump_token_fails "alpha" "1.2.3" "1.0.0" (by decide)

/-! ## Manifest naming (`Pac.create`, `pac.py` lines 159-199)

Filesystem paths are modelled as lists of components; the repository root
`ROOT_PATH = Path(".")` is the empty list. -/

/-- Python `str(Path)` on a component list (`"/"`-joined, `"."` for the
root). -/
def joinSlash : List String → String
  | [] => "."
  | [c] => c
  | c :: rest => c ++ "/" ++ joinSlash rest

/-- The `re.sub("/", ".", str(pac_file.parent))` rendering of a package
directory as a dotted package name. -/
def joinDots : List String → String
  | [] => "."
  | [c] => c
  | c :: rest => c ++ "." ++ joinDots rest

/-- The name-derivation fragment of `Pac.create`: for a manifest at the
repository root, use the declared name; otherwise require the containing
directory component `pac_file.parts[-2]` to equal the declared name —
the source RAISES a `RuntimeWarning` on mismatch — and derive the dotted
name from the directory path. -/
def pacCreateName (pac_file : List String) (configName : String) :
    Except PyExc String :=
  if pac_file.dropLast = [] then .ok configName
  else if pac_file.dropLast.getLastD "" ≠ configName then
    .error (PyExc.exc .runtimeWarning
      ("[package] directory name is not as same as we defined in "
        ++ joinSlash pac_file ++ ","))
  else .ok (joinDots pac_file.dropLast)

/-- C7 (code evaluated at the failing input): a manifest at `foo/pac.toml`
declaring the package name `bar` makes `Pac.create` raise a
`RuntimeWarning` — an exception that aborts processing of that manifest —
rather than logging a warning and continuing. -/
theorem directory_mismatch_raises :
    pacCreateName ["foo", "pac.toml"] "bar" =
      .error (PyExc.exc .runtimeWarning
        ("[package] directory name is not as same as we defined in "
          ++ "foo/pac.toml" ++ ",")) ∧
    ∀ name : String, pacCreateName ["foo", "pac.toml"] "bar" ≠ .ok name := by
  constructor
  · rfl
  · intro name h
    simp [pacCreateName] at h

/-! ## Change set location (`track_changed_paths`, `pac.py` lines 209-233) -/

/-- Whether a character-list prefix matches. -/
def startsWithChars : List Char → List Char → Bool
  | _, [] => true
  | [], _ :: _ => false
  | c :: cs, p :: ps => c == p && startsWithChars cs ps

/-- Python's substring test `"tests" in s`. -/
def containsTests (s : List Char) : Bool :=
  s.tails.any (fun t => startsWithChars t ['t', 'e', 's', 't', 's'])

/-- The test `Path(path).suffix != ".py"` (negated): the final component has
a `.py` extension, i.e. its last dot is at a position other than the start
and is followed exactly by `py`. -/
def hasPySuffix (path : List String) : Bool :=
  let name := (path.getLastD "").data
  let afterDot := name.reverse.takeWhile (fun c => c != '.')
  afterDot == ['y', 'p'] && decide (afterDot.length + 1 < name.length)

/-- The `while True` manifest walk, with explicit fuel: starting at a
directory, stop at the first ancestor (the directory itself included)
owning a `pac.toml`; reaching past the root raises `IndexError`
(`Path(".").parents[0]` on the root), modelled as `none`. Each step drops
one path component, so fuel `dir.length + 1` always suffices and the
fuel-exhaustion case is unreachable from `walkUp`. -/
def walkUpAux (hasManifest : List String → Bool) :
    Nat → List String → Option (List String)
  | 0, _ => none
  | fuel + 1, dir =>
    if hasManifest dir then some dir
    else if dir.isEmpty then none
    else walkUpAux hasManifest fuel dir.dropLast

/-- The `while True` manifest walk of `track_changed_paths`. -/
def walkUp (hasManifest : List String → Bool) (dir : List String) :
    Option (List String) :=
  walkUpAux hasManifest (dir.length + 1) dir

/-- The loop body of `track_changed_paths` over the changed path list,
carrying the accumulated package-directory set (a list with insertion-order
add-once semantics standing for the Python `set`). Mirrors the source's
order: skip non-`.py` paths; take the file's parent; if the parent's
rendered path contains `"tests"`, use `parents[1]` of the file instead
(raising `IndexError` when it does not exist); remove the repository root
from the accumulated set BEFORE walking and adding the current path's
package; walk up to the owning manifest; add it. Returns the owning
manifest files. -/
def goTrack (hasManifest : List String → Bool) :
    List (List String) → List (List String) →
      Except PyExc (List (List String))
  | [], acc => .ok (acc.map (fun d => d ++ ["pac.toml"]))
  | path :: rest, acc =>
    if !hasPySuffix path then goTrack hasManifest rest acc
    else
      let acc1 := acc.erase []
      match (if containsTests (joinSlash path.dropLast).data then
               (if 2 ≤ path.length then some path.dropLast.dropLast else none)
             else some path.dropLast) with
      | none => .error (PyExc.exc .indexError "list index out of range")
      | some start =>
        match walkUp hasManifest start with
        | some d => goTrack hasManifest rest
            (if d ∈ acc1 then acc1 else acc1 ++ [d])
        | none => .error (PyExc.exc .indexError "list index out of range")

/-- The function `track_changed_paths`, parametrised by which directories
own a `pac.toml` and by the changed paths reported by the revision-control
collaborator. -/
def trackChanged (hasManifest : List String → Bool)
    (paths : List (List String)) : Except PyExc (List (List String)) :=
  goTrack hasManifest paths []

/-- C9 (code evaluated at the failing input): with a repository whose root
owns a `pac.toml` and a single changed root-level file `main.py`, the
change-set locator returns the repository root's manifest — the
root-removal step runs before the current file's package is added, so a
root attribution in the last iteration survives into the result. -/
theorem root_manifest_not_excluded :
    trackChanged (fun d => d.isEmpty) [["main.py"]] = .ok [["pac.toml"]] ∧
    ([] : List String) ++ ["pac.toml"] ∈ [["pac.toml"]] := by
  constructor
  · rfl
  · simp

/-! ## Impact propagation (the affected-package loop of `test`,
`pac.py` lines 347-372)

Poetry's `Package` and `Dependency` are external collaborators; per the
spec's data model only a dependency's name and its `accepts` predicate on a
candidate version matter, and two packages compare equal iff their names
are equal. A changed package's `version` field already holds its resolved
NEXT version (`ModifiedPackage.__init__` passes `self._next_version` to the
base constructor), so `dependency.accepts(changed_package)` is the
constraint applied to the next version. -/

/-- A declared dependency: a name and the simple-range `accepts` predicate
on a candidate version string. -/
structure Dep where
  name : String
  accepts : String → Bool

/-- A resolved package: name, version (for a changed package this is the
resolved next version), and declared main dependencies. -/
structure Pkg where
  name : String
  version : String
  requires : List Dep

/-- The dict lookup `package_names[name]` over
`package_names = {p.name: p for p in changed_packages}` (changed-package
names are distinct in any one invocation, so first match equals the dict
entry). -/
def lookupChanged (changed : List Pkg) (n : String) : Option Pkg :=
  changed.find? (fun c => c.name == n)

/-- One iteration of the inner dependency loop: skip dependencies whose
name is no changed package; skip when the owning package is already in the
affected set; otherwise add the package iff the dependency's constraint
accepts the changed package (i.e. its next version). -/
def depStep (changed : List Pkg) (package : Pkg) (affected : List Pkg)
    (dependency : Dep) : List Pkg :=
  if dependency.name ∉ changed.map Pkg.name then affected
  else if package.name ∈ affected.map Pkg.name then affected
  else
    match lookupChanged changed dependency.name with
    | some c => if dependency.accepts c.version then affected ++ [package]
                else affected
    | none => affected

/-- One iteration of the outer pending-package loop: skip packages that are
themselves changed (package equality is name equality), else run the
dependency loop. -/
def affectStep (changed : List Pkg) (affected : List Pkg) (package : Pkg) :
    List Pkg :=
  if package.name ∈ changed.map Pkg.name then affected
  else package.requires.foldl (depStep changed package) affected

/-- The affected-package computation of the `test` command: fold the two
nested loops over the pending packages, starting from the empty affected
set (kept as an insertion-ordered duplicate-free list standing for the
Python `set`). -/
def computeAffected (pending changed : List Pkg) : List Pkg :=
  pending.foldl (affectStep changed) []

/-- Whether one dependency makes its owner affected: its name names a
changed package whose (next) version the constraint accepts. -/
def depTriggers (changed : List Pkg) (d : Dep) : Bool :=
  match lookupChanged changed d.name with
  | some c => d.accepts c.version
  | none => false

theorem lookupChanged_eq_none (changed : List Pkg) (n : String) :
    lookupChanged changed n = none ↔ n ∉ changed.map Pkg.name := by
  unfold lookupChanged
  rw [List.find?_eq_none]
  constructor
  · intro h hmem
    rcases List.mem_map.mp hmem with ⟨c, hc, hcn⟩
    exact h c hc (by simp [hcn])
  · intro h c hc hbeq
    exact h (List.mem_map.mpr ⟨c, hc, by simpa using hbeq⟩)

theorem lookupChanged_mem (changed : List Pkg) (n : String)
    (h : n ∈ changed.map Pkg.name) :
    ∃ c, lookupChanged changed n = some c ∧ c.name = n := by
  rcases ho : lookupChanged changed n with _ | c
  · exact absurd ((lookupChanged_eq_none changed n).mp ho) (by simp [h])
  · refine ⟨c, rfl, ?_⟩
    have := List.find?_some ho
    simpa using this

theorem foldl_depStep_of_mem (changed : List Pkg) (package : Pkg) :
    ∀ (l : List Dep) (acc : List Pkg),
      package.name ∈ acc.map Pkg.name →
      List.foldl (depStep changed package) acc l = acc := by
  intro l
  induction l with
  | nil => intro acc _; rfl
  | cons d rest ih =>
    intro acc hmem
    have hstep : depStep changed package acc d = acc := by
      unfold depStep
      by_cases h1 : d.name ∉ changed.map Pkg.name
      · rw [if_pos h1]
      · rw [if_neg h1, if_pos hmem]
    rw [List.foldl_cons, hstep]
    exact ih acc hmem

theorem foldl_depStep_of_not_mem (changed : List Pkg) (package : Pkg) :
    ∀ (l : List Dep) (acc : List Pkg),
      package.name ∉ acc.map Pkg.name →
      List.foldl (depStep changed package) acc l =
        (if l.any (depTriggers changed) then acc ++ [package] else acc) := by
  intro l
  induction l with
  | nil => intro acc _; simp
  | cons d rest ih =>
    intro acc hmem
    rw [List.foldl_cons]
    by_cases h1 : d.name ∈ changed.map Pkg.name
    · rcases lookupChanged_mem changed d.name h1 with ⟨c, hc, _⟩
      have hstep : depStep changed package acc d =
          (if depTriggers changed d then acc ++ [package] else acc) := by
        unfold depStep depTriggers
        rw [if_neg (by simpa using h1), if_neg hmem, hc]
      rw [hstep]
      by_cases htr : depTriggers changed d = true
      · rw [if_pos htr]
        rw [foldl_depStep_of_mem changed package rest (acc ++ [package])
          (by simp)]
        simp [htr]
      · simp only [Bool.not_eq_true] at htr
        rw [htr]
        simp only [if_neg Bool.false_ne_true]
        rw [ih acc hmem]
        simp [htr]
    · have htr : depTriggers changed d = false := by
        unfold depTriggers
        rw [(lookupChanged_eq_none changed d.name).mpr h1]
      have hstep : depStep changed package acc d = acc := by
        unfold depStep
        rw [if_pos h1]
      rw [hstep, ih acc hmem]
      simp [htr]

/-- The predicate under which the source adds a pending package to the
affected set. -/
def affectedPredicate (changed : List Pkg) (q : Pkg) : Bool :=
  decide (q.name ∉ changed.map Pkg.name) && q.requires.any (depTriggers changed)

theorem foldl_affectStep_eq (changed : List Pkg) :
    ∀ (pending : List Pkg) (acc : List Pkg),
      (∀ q ∈ pending, q.name ∉ acc.map Pkg.name) →
      (pending.map Pkg.name).Nodup →
      List.foldl (affectStep changed) acc pending =
        acc ++ pending.filter (affectedPredicate changed) := by
  intro pending
  induction pending with
  | nil => intro acc _ _; simp
  | cons p rest ih =>
    intro acc hacc hnodup
    rw [List.foldl_cons]
    have hcons : p.name ∉ rest.map Pkg.name ∧ (rest.map Pkg.name).Nodup := by
      have h := hnodup
      rw [List.map_cons, List.nodup_cons] at h
      exact h
    have hrestnodup : (rest.map Pkg.name).Nodup := hcons.2
    by_cases h1 : p.name ∈ changed.map Pkg.name
    · have hstep : affectStep changed acc p = acc := by
        unfold affectStep
        rw [if_pos h1]
      have hpred : affectedPredicate changed p = false := by
        unfold affectedPredicate
        simp [h1]
      rw [hstep, ih acc (fun q hq => hacc q (List.mem_cons_of_mem p hq))
        hrestnodup]
      simp [List.filter_cons, hpred]
    · have hpnot : p.name ∉ acc.map Pkg.name := hacc p (List.mem_cons_self p rest)
      have hstep : affectStep changed acc p =
          (if p.requires.any (depTriggers changed) then acc ++ [p] else acc) := by
        unfold affectStep
        rw [if_neg h1]
        exact foldl_depStep_of_not_mem changed p p.requires acc hpnot
      rw [hstep]
      by_cases h2 : p.requires.any (depTriggers changed) = true
      · rw [if_pos h2]
        have hpred : affectedPredicate changed p = true := by
          unfold affectedPredicate
          simp [h1, h2]
        have hne : ∀ q ∈ rest, q.name ∉ (acc ++ [p]).map Pkg.name := by
          intro q hq
          simp only [List.map_append, List.mem_append]
          rintro (hin | hin)
          · exact hacc q (List.mem_cons_of_mem p hq) hin
          · have hq2 : q.name = p.name := by simpa using hin
            exact hcons.1 (List.mem_map.mpr ⟨q, hq, hq2⟩)
        rw [ih (acc ++ [p]) hne hrestnodup]
        simp [List.filter_cons, hpred]
      · simp only [Bool.not_eq_true] at h2
        rw [h2]
        simp only [if_neg Bool.false_ne_true]
        have hpred : affectedPredicate changed p = false := by
          unfold affectedPredicate
          simp [h2]
        rw [ih acc (fun q hq => hacc q (List.mem_cons_of_mem p hq)) hrestnodup]
        simp [List.filter_cons, hpred]

theorem computeAffected_eq (pending changed : List Pkg)
    (hnodup : (pending.map Pkg.name).Nodup) :
    computeAffected pending changed =
      pending.filter (affectedPredicate changed) := by
  unfold computeAffected
  rw [foldl_affectStep_eq changed pending [] (by simp) hnodup]
  simp

/-- Sample changed package `alpha` after a minor bump from `1.0.0`: its
`version` field holds the resolved next version `1.1.0`. -/
def alphaPkg : Pkg := { name := "alpha", version := "1.1.0", requires := [] }

/-- Sample dependency of `beta` on `alpha` whose simple-range constraint
still accepts the next version `1.1.0`. -/
def betaDepAlpha : Dep := { name := "alpha", accepts := fun v => v == "1.1.0" }

/-- Sample pending package `beta` depending on `alpha`. -/
def betaPkg : Pkg := { name := "beta", version := "0.1.0", requires := [betaDepAlpha] }

/-- C1 counterexample: in the spec's own end-to-end scenario (`beta` depends
on changed `alpha`, constraint still accepts next version `1.1.0`) the code
DOES place `beta` in the affected set while its constraint accepts the next
version — the claim, which requires `beta` to be affected only when the
constraint does NOT accept, is false on this input. -/
theorem accepts_policy_counterexample :
    (computeAffected [betaPkg] [alphaPkg]).map Pkg.name = ["beta"] ∧
    betaDepAlpha.accepts alphaPkg.version = true :=
  ⟨rfl, rfl⟩

/-- C1 (amended): a pending package not in the changed set is placed in the
affected set if and only if some declared main dependency of it names a
changed package and its constraint DOES accept that changed package's next
version (the code's polarity is `accepts`, the reverse of the claim's). -/
theorem affected_iff_accepts (pending changed : List Pkg) (p : Pkg)
    (hnodup : (pending.map Pkg.name).Nodup)
    (hp : p ∈ pending)
    (hnc : p.name ∉ changed.map Pkg.name) :
    (p.name ∈ (computeAffected pending changed).map Pkg.name ↔
      ∃ d ∈ p.requires, d.name ∈ changed.map Pkg.name ∧
        ∃ c, lookupChanged changed d.name = some c ∧ d.accepts c.version = true) := by
  rw [computeAffected_eq pending changed hnodup]
  constructor
  · intro h
    rcases List.mem_map.mp h with ⟨q, hqf, hqn⟩
    have hqp : q ∈ pending := (List.mem_filter.mp hqf).1
    have hqpred := (List.mem_filter.mp hqf).2
    have hqe : q = p := List.inj_on_of_nodup_map hnodup hqp hp hqn
    subst hqe
    unfold affectedPredicate at hqpred
    simp only [Bool.and_eq_true] at hqpred
    rcases List.any_eq_true.mp hqpred.2 with ⟨d, hd, htr⟩
    unfold depTriggers at htr
    rcases ho : lookupChanged changed d.name with _ | c
    · rw [ho] at htr; exact absurd htr (by simp)
    · rw [ho] at htr
      refine ⟨d, hd, ?_, c, ho, htr⟩
      by_contra hno
      rw [(lookupChanged_eq_none changed d.name).mpr hno] at ho
      exact Option.noConfusion ho
  · rintro ⟨d, hd, _, c, hc, hacc⟩
    have hpred : affectedPredicate changed p = true := by
      unfold affectedPredicate
      simp only [Bool.and_eq_true]
      refine ⟨by simpa using hnc, ?_⟩
      refine List.any_eq_true.mpr ⟨d, hd, ?_⟩
      unfold depTriggers
      rw [hc]
      exact hacc
    exact List.mem_map.mpr ⟨p, List.mem_filter.mpr ⟨hp, hpred⟩, rfl⟩

theorem affected_iff_accepts_witness :
    (betaPkg.name ∈ (computeAffected [betaPkg] [alphaPkg]).map Pkg.name ↔
      ∃ d ∈ betaPkg.requires, d.name ∈ ([alphaPkg].map Pkg.name) ∧
        ∃ c, lookupChanged [alphaPkg] d.name = some c ∧
          d.accepts c.version = true) :=
  affected_iff_accepts [betaPkg] [alphaPkg] betaPkg (by decide)
    (List.Mem.head _) (by decide)

/-! ## Topological sequencing (the graph build and peeling loop of `test`,
`pac.py` lines 377-404) -/

/-- The dependency graph the `test` command builds: one entry per CHANGED
package (initialised `graph[package.name] = []`), holding its dependency
names restricted to changed-package names, in declaration order. -/
def buildGraph (changed : List Pkg) : List (String × List String) :=
  changed.map (fun q =>
    (q.name, (q.requires.map Dep.name).filter (fun d => d ∈ changed.map Pkg.name)))

/-- Keys of a graph in insertion order (Python dicts preserve it). -/
def graphKeys (g : List (String × List String)) : List String := g.map Prod.fst

/-- Termination measure: total entry count plus dependency count. -/
def gsize (g : List (String × List String)) : Nat :=
  (g.map (fun e => e.2.length + 1)).sum

/-- The inner removal loop
`for dep in graph[pack]: if dep in known: graph[pack].remove(dep)`:
Python iterates by index while `remove` shifts the remainder left, so after
a removal the element that follows the removed one is skipped (kept,
unexamined this round). Dependency lists are duplicate-free — they come
from TOML mapping keys — so `remove` deletes exactly the element at the
current index. -/
def removeKnownSkip (known : List String) : List String → List String
  | [] => []
  | [d] => if d ∈ known then [] else [d]
  | d :: e :: rest =>
    if d ∈ known then e :: removeKnownSkip known rest
    else d :: removeKnownSkip known (e :: rest)

/-- One round of the peeling loop (`for pack_name in graph_copy.keys()`
over a snapshot of the keys): an entry whose dependency list is empty at
its visit is appended to `known` and deleted; any other entry has its
already-`known` dependencies removed with the index-skip semantics.
`known` grows during the round, so later entries observe earlier
deletions. -/
def round1 : List (String × List String) → List String →
    List (String × List String) × List String
  | [], known => ([], known)
  | (p, deps) :: rest, known =>
    if deps = [] then round1 rest (known ++ [p])
    else
      let r := round1 rest known
      ((p, removeKnownSkip known deps) :: r.1, r.2)

/-- The outer `while True` peeling loop, with explicit fuel: run rounds
until the graph is empty; `none` means the loop is still running after
`fuel` rounds (the source has no termination check of its own). -/
def peel : Nat → List (String × List String) → List String →
    Option (List String)
  | 0, _, _ => none
  | fuel + 1, g, known =>
    let r := round1 g known
    if r.1 = [] then some r.2 else peel fuel r.1 r.2

/-- One name appears before another in an output sequence. -/
def Before (l : List String) (d p : String) : Prop :=
  ∃ l1 l2, l = l1 ++ l2 ∧ d ∈ l1 ∧ p ∈ l2

/-- Sample changed package `a` of a two-cycle. -/
def cyclePkgA : Pkg :=
  { name := "a", version := "1.0.0", requires := [⟨"b", fun _ => true⟩] }

/-- Sample changed package `b` of a two-cycle. -/
def cyclePkgB : Pkg :=
  { name := "b", version := "1.0.0", requires := [⟨"a", fun _ => true⟩] }

/-- C2 (code evaluated at the failing input): on the dependency graph of
two changed packages that depend on each other, the peeling loop never
terminates — after any number of rounds it is still running (no
`CycleDetected` error exists anywhere in the code). -/
theorem cycle_never_terminates :
    ∀ fuel, peel fuel (buildGraph [cyclePkgA, cyclePkgB]) [] = none := by
  intro fuel
  induction fuel with
  | zero => rfl
  | succ n ih =>
    have hstep : peel (n + 1) (buildGraph [cyclePkgA, cyclePkgB]) [] =
        peel n (buildGraph [cyclePkgA, cyclePkgB]) [] := rfl
    rw [hstep]
    exact ih

theorem rks_sublist (known : List String) :
    ∀ l, (removeKnownSkip known l).Sublist l
  | [] => List.Sublist.refl []
  | [d] => by
    by_cases h : d ∈ known
    · simp only [removeKnownSkip, if_pos h]
      exact List.nil_sublist [d]
    · simp only [removeKnownSkip, if_neg h]
      exact List.Sublist.refl [d]
  | d :: e :: rest => by
    by_cases h : d ∈ known
    · simp only [removeKnownSkip, if_pos h]
      exact ((rks_sublist known rest).cons₂ e).cons d
    · simp only [removeKnownSkip, if_neg h]
      exact (rks_sublist known (e :: rest)).cons₂ d

theorem rks_removed_mem (known : List String) :
    ∀ (l : List String) (d : String),
      d ∈ l → d ∉ removeKnownSkip known l → d ∈ known
  | [], d, hd, _ => absurd hd (by simp)
  | [e], d, hd, hnot => by
    rcases List.mem_singleton.mp hd with rfl
    by_cases h : d ∈ known
    · exact h
    · exact absurd (by simp [removeKnownSkip, h]) hnot
  | e :: f :: rest, d, hd, hnot => by
    by_cases h : e ∈ known
    · rw [show removeKnownSkip known (e :: f :: rest) =
          f :: removeKnownSkip known rest from by
        simp [removeKnownSkip, h]] at hnot
      rcases List.mem_cons.mp hd with rfl | hd2
      · exact h
      · rcases List.mem_cons.mp hd2 with rfl | hd3
        · exact absurd (List.mem_cons_self _ _) hnot
        · exact rks_removed_mem known rest d hd3
            (fun hm => hnot (List.mem_cons_of_mem f hm))
    · rw [show removeKnownSkip known (e :: f :: rest) =
          e :: removeKnownSkip known (f :: rest) from by
        simp [removeKnownSkip, h]] at hnot
      rcases List.mem_cons.mp hd with rfl | hd2
      · exact absurd (List.mem_cons_self _ _) hnot
      · exact rks_removed_mem known (f :: rest) d hd2
          (fun hm => hnot (List.mem_cons_of_mem e hm))

theorem rks_length_lt_head (known : List String) (d : String)
    (rest : List String) (h : d ∈ known) :
    (removeKnownSkip known (d :: rest)).length < (d :: rest).length := by
  cases rest with
  | nil => simp [removeKnownSkip, h]
  | cons e rest2 =>
    rw [show removeKnownSkip known (d :: e :: rest2) =
        e :: removeKnownSkip known rest2 from by simp [removeKnownSkip, h]]
    have hle := (rks_sublist known rest2).length_le
    simp only [List.length_cons]
    omega

theorem round1_known_append :
    ∀ (g : List (String × List String)) (known : List String),
      ∃ extra, (round1 g known).2 = known ++ extra
  | [], known => ⟨[], by simp [round1]⟩
  | (p, deps) :: rest, known => by
    by_cases h : deps = []
    · rcases round1_known_append rest (known ++ [p]) with ⟨extra, he⟩
      refine ⟨[p] ++ extra, ?_⟩
      rw [show round1 ((p, deps) :: rest) known = round1 rest (known ++ [p])
        from by simp [round1, h]]
      rw [he]
      simp
    · rcases round1_known_append rest known with ⟨extra, he⟩
      refine ⟨extra, ?_⟩
      rw [show round1 ((p, deps) :: rest) known =
          ((p, removeKnownSkip known deps) :: (round1 rest known).1,
            (round1 rest known).2) from by simp [round1, h]]
      exact he

theorem round1_perm :
    ∀ (g : List (String × List String)) (known : List String),
      (graphKeys (round1 g known).1 ++ (round1 g known).2).Perm
        (graphKeys g ++ known)
  | [], known => by simp [round1, graphKeys]
  | (p, deps) :: rest, known => by
    by_cases h : deps = []
    · have ih := round1_perm rest (known ++ [p])
      rw [show round1 ((p, deps) :: rest) known = round1 rest (known ++ [p])
        from by simp [round1, h]]
      have h1 : graphKeys rest ++ (known ++ [p]) =
          (graphKeys rest ++ known) ++ [p] := by
        simp [List.append_assoc]
      rw [h1] at ih
      have h2 := ih.trans (List.perm_append_singleton p (graphKeys rest ++ known))
      simpa [graphKeys] using h2
    · have ih := round1_perm rest known
      rw [show round1 ((p, deps) :: rest) known =
          ((p, removeKnownSkip known deps) :: (round1 rest known).1,
            (round1 rest known).2) from by simp [round1, h]]
      simpa [graphKeys] using ih.cons p

/-- Invariant relating the current graph to the original one: every
remaining entry's dependency list is a sublist of the original one, and
every dependency already removed from it is in `known`. -/
def SubInv (g0 g : List (String × List String)) (known : List String) : Prop :=
  ∀ p deps, (p, deps) ∈ g →
    ∃ deps0, (p, deps0) ∈ g0 ∧ deps.Sublist deps0 ∧
      ∀ d ∈ deps0, d ∉ deps → d ∈ known

/-- Output invariant: every name already in `known` has all its original
dependencies earlier in `known`. -/
def Sound (g0 : List (String × List String)) (known : List String) : Prop :=
  ∀ p deps0, (p, deps0) ∈ g0 → p ∈ known → ∀ d ∈ deps0, Before known d p

theorem Before.append_right (l r : List String) (d p : String)
    (h : Before l d p) : Before (l ++ r) d p := by
  rcases h with ⟨l1, l2, rfl, hd, hp⟩
  exact ⟨l1, l2 ++ r, by simp [List.append_assoc], hd, List.mem_append_left r hp⟩

theorem nodup_keys_unique (g0 : List (String × List String))
    (hkeys : (graphKeys g0).Nodup) (p : String) (a b : List String)
    (ha : (p, a) ∈ g0) (hb : (p, b) ∈ g0) : a = b := by
  have h := List.inj_on_of_nodup_map
    (show (g0.map Prod.fst).Nodup by simpa [graphKeys] using hkeys) ha hb rfl
  cases h
  rfl

theorem round1_inv (g0 : List (String × List String))
    (hkeys : (graphKeys g0).Nodup) :
    ∀ (g : List (String × List String)) (known : List String),
      SubInv g0 g known → Sound g0 known →
      SubInv g0 (round1 g known).1 (round1 g known).2 ∧
        Sound g0 (round1 g known).2
  | [], known => by
    intro hsub hsound
    constructor
    · intro p deps h
      simp [round1] at h
    · simpa [round1] using hsound
  | (p, deps) :: rest, known => by
    intro hsub hsound
    by_cases h : deps = []
    · subst h
      rcases hsub p [] (List.mem_cons_self _ _) with ⟨deps0, h0, _, hall⟩
      have hallknown : ∀ d ∈ deps0, d ∈ known := fun d hd =>
        hall d hd (by simp)
      have hsound2 : Sound g0 (known ++ [p]) := by
        intro q deps0q hq hqmem d hd
        rcases List.mem_append.mp hqmem with hq1 | hq1
        · exact Before.append_right known [p] d q (hsound q deps0q hq hq1 d hd)
        · rcases List.mem_singleton.mp hq1 with rfl
          have hde : deps0q = deps0 := nodup_keys_unique g0 hkeys q deps0q deps0 hq h0
          subst hde
          exact ⟨known, [q], rfl, hallknown d hd, List.mem_singleton_self q⟩
      have hsub2 : SubInv g0 rest (known ++ [p]) := by
        intro q depsq hq
        rcases hsub q depsq (List.mem_cons_of_mem _ hq) with ⟨d0, h1, h2, h3⟩
        exact ⟨d0, h1, h2, fun d hd hnd => List.mem_append_left [p] (h3 d hd hnd)⟩
      have ih := round1_inv g0 hkeys rest (known ++ [p]) hsub2 hsound2
      rw [show round1 ((p, ([] : List String)) :: rest) known =
          round1 rest (known ++ [p]) from by simp [round1]]
      exact ih
    · have hsubrest : SubInv g0 rest known := fun q depsq hq =>
        hsub q depsq (List.mem_cons_of_mem _ hq)
      have ih := round1_inv g0 hkeys rest known hsubrest hsound
      rcases round1_known_append rest known with ⟨extra, hext⟩
      rw [show round1 ((p, deps) :: rest) known =
          ((p, removeKnownSkip known deps) :: (round1 rest known).1,
            (round1 rest known).2) from by simp [round1, h]]
      refine ⟨?_, ih.2⟩
      intro q depsq hq
      rcases List.mem_cons.mp hq with heq | hq2
      · have hqp : q = p := congrArg Prod.fst heq
        have hdq : depsq = removeKnownSkip known deps := congrArg Prod.snd heq
        subst hqp
        subst hdq
        rcases hsub q deps (List.mem_cons_self _ _) with ⟨deps0, h1, h2, h3⟩
        refine ⟨deps0, h1, (rks_sublist known deps).trans h2, ?_⟩
        intro d hd hnd
        have hdk : d ∈ known := by
          by_cases hmem : d ∈ deps
          · exact rks_removed_mem known deps d hmem hnd
          · exact h3 d hd hmem
        rw [hext]
        exact List.mem_append_left extra hdk
      · exact ih.1 q depsq hq2

theorem gsize_cons (p : String) (deps : List String)
    (rest : List (String × List String)) :
    gsize ((p, deps) :: rest) = deps.length + 1 + gsize rest := by
  simp [gsize]

theorem round1_size_le :
    ∀ (g : List (String × List String)) (known : List String),
      gsize (round1 g known).1 ≤ gsize g
  | [], known => by simp [round1]
  | (p, deps) :: rest, known => by
    by_cases h : deps = []
    · rw [show round1 ((p, deps) :: rest) known = round1 rest (known ++ [p])
        from by simp [round1, h]]
      have := round1_size_le rest (known ++ [p])
      rw [gsize_cons]
      omega
    · rw [show round1 ((p, deps) :: rest) known =
          ((p, removeKnownSkip known deps) :: (round1 rest known).1,
            (round1 rest known).2) from by simp [round1, h]]
      have h1 := round1_size_le rest known
      have h2 := (rks_sublist known deps).length_le
      rw [gsize_cons, gsize_cons]
      omega

theorem round1_size_lt :
    ∀ (g : List (String × List String)) (known : List String),
      (∃ q deps, (q, deps) ∈ g ∧
        (deps = [] ∨ ∃ d rest2, deps = d :: rest2 ∧ d ∈ known)) →
      gsize (round1 g known).1 < gsize g
  | [], known => by
    rintro ⟨q, deps, hm, _⟩
    simp at hm
  | (p, deps) :: rest, known => by
    rintro ⟨q, depsq, hm, hw⟩
    by_cases h : deps = []
    · rw [show round1 ((p, deps) :: rest) known = round1 rest (known ++ [p])
        from by simp [round1, h]]
      have := round1_size_le rest (known ++ [p])
      rw [gsize_cons]
      omega
    · rw [show round1 ((p, deps) :: rest) known =
          ((p, removeKnownSkip known deps) :: (round1 rest known).1,
            (round1 rest known).2) from by simp [round1, h]]
      rcases List.mem_cons.mp hm with heq | hm2
      · have hqp : q = p := congrArg Prod.fst heq
        have hdq : depsq = deps := congrArg Prod.snd heq
        subst hqp
        subst hdq
        rcases hw with rfl | ⟨d, rest2, rfl, hdk⟩
        · exact absurd rfl h
        · have hlt := rks_length_lt_head known d rest2 hdk
          have h1 := round1_size_le rest known
          rw [gsize_cons, gsize_cons]
          omega
      · have hlt := round1_size_lt rest known ⟨q, depsq, hm2, hw⟩
        have h2 := (rks_sublist known deps).length_le
        rw [gsize_cons, gsize_cons]
        omega

theorem exists_min_entry (rank : String → Nat) :
    ∀ (g : List (String × List String)), g ≠ [] →
      ∃ e, e ∈ g ∧ ∀ e2 ∈ g, rank e.1 ≤ rank e2.1
  | [], h => absurd rfl h
  | e :: rest, _ => by
    rcases eq_or_ne rest [] with rfl | hne
    · refine ⟨e, List.mem_singleton_self e, ?_⟩
      intro e2 h2
      rcases List.mem_singleton.mp h2 with rfl
      exact le_refl _
    · rcases exists_min_entry rank rest hne with ⟨m, hm, hmin⟩
      rcases le_or_lt (rank e.1) (rank m.1) with hle | hlt
      · refine ⟨e, List.mem_cons_self e rest, ?_⟩
        intro e2 h2
        rcases List.mem_cons.mp h2 with rfl | h3
        · exact le_refl _
        · exact hle.trans (hmin e2 h3)
      · refine ⟨m, List.mem_cons_of_mem e hm, ?_⟩
        intro e2 h2
        rcases List.mem_cons.mp h2 with rfl | h3
        · exact hlt.le
        · exact hmin e2 h3

theorem exists_ready (g0 : List (String × List String)) (rank : String → Nat)
    (hdeps0 : ∀ p deps0, (p, deps0) ∈ g0 → ∀ d ∈ deps0, d ∈ graphKeys g0)
    (hacyc : ∀ p deps0, (p, deps0) ∈ g0 → ∀ d ∈ deps0, rank d < rank p)
    (g : List (String × List String)) (known : List String)
    (hsub : SubInv g0 g known)
    (hperm : (graphKeys g ++ known).Perm (graphKeys g0))
    (hne : g ≠ []) :
    ∃ q deps, (q, deps) ∈ g ∧
      (deps = [] ∨ ∃ d rest2, deps = d :: rest2 ∧ d ∈ known) := by
  rcases exists_min_entry rank g hne with ⟨⟨q, deps⟩, hm, hmin⟩
  refine ⟨q, deps, hm, ?_⟩
  rcases deps with _ | ⟨d, rest2⟩
  · exact Or.inl rfl
  · refine Or.inr ⟨d, rest2, rfl, ?_⟩
    rcases hsub q (d :: rest2) hm with ⟨deps0, h0, hsl, _⟩
    have hd0 : d ∈ deps0 := hsl.subset (List.mem_cons_self d rest2)
    have hrank : rank d < rank q := hacyc q deps0 h0 d hd0
    have hdg0 : d ∈ graphKeys g0 := hdeps0 q deps0 h0 d hd0
    have hdin : d ∈ graphKeys g ++ known := hperm.mem_iff.mpr hdg0
    rcases List.mem_append.mp hdin with hdg | hdk
    · rcases List.mem_map.mp hdg with ⟨⟨d2, depsd⟩, hin, heq⟩
      have hd2 : d2 = d := heq
      subst hd2
      have := hmin ⟨d2, depsd⟩ hin
      simp only at this
      omega
    · exact hdk

theorem peel_spec (g0 : List (String × List String)) (rank : String → Nat)
    (hkeys : (graphKeys g0).Nodup)
    (hdeps0 : ∀ p deps0, (p, deps0) ∈ g0 → ∀ d ∈ deps0, d ∈ graphKeys g0)
    (hacyc : ∀ p deps0, (p, deps0) ∈ g0 → ∀ d ∈ deps0, rank d < rank p) :
    ∀ (fuel : Nat) (g : List (String × List String)) (known : List String),
      gsize g < fuel →
      SubInv g0 g known → Sound g0 known →
      (graphKeys g ++ known).Perm (graphKeys g0) →
      ∃ out, peel fuel g known = some out ∧ out.Perm (graphKeys g0) ∧
        Sound g0 out := by
  intro fuel
  induction fuel with
  | zero =>
    intro g known hsize
    exact absurd hsize (Nat.not_lt_zero _)
  | succ f ih =>
    intro g known hsize hsub hsound hperm
    have hinv := round1_inv g0 hkeys g known hsub hsound
    have hperm2 := (round1_perm g known).trans hperm
    by_cases hg : (round1 g known).1 = []
    · refine ⟨(round1 g known).2, ?_, ?_, hinv.2⟩
      · simp [peel, hg]
      · have h3 := hperm2
        rw [hg] at h3
        simpa [graphKeys] using h3
    · have hgne : g ≠ [] := by
        intro h0
        subst h0
        exact hg (by simp [round1])
      have hready := exists_ready g0 rank hdeps0 hacyc g known hsub hperm hgne
      have hlt : gsize (round1 g known).1 < gsize g :=
        round1_size_lt g known hready
      have hrec := ih (round1 g known).1 (round1 g known).2 (by omega)
        hinv.1 hinv.2 hperm2
      rcases hrec with ⟨out, hpeel, hperm3, hsound3⟩
      refine ⟨out, ?_, hperm3, hsound3⟩
      simp only [peel, if_neg hg]
      exact hpeel

theorem kahn_core (g0 : List (String × List String))
    (rank : String → Nat)
    (hkeys : (graphKeys g0).Nodup)
    (hdeps0 : ∀ p deps0, (p, deps0) ∈ g0 →
      deps0.Nodup ∧ ∀ d ∈ deps0, d ∈ graphKeys g0)
    (hacyc : ∀ p deps0, (p, deps0) ∈ g0 → ∀ d ∈ deps0, rank d < rank p) :
    ∃ out, peel (gsize g0 + 1) g0 [] = some out ∧
      out.Perm (graphKeys g0) ∧ out.Nodup ∧
      ∀ p deps0 d, (p, deps0) ∈ g0 → d ∈ deps0 → Before out d p := by
  have hd2 : ∀ p deps0, (p, deps0) ∈ g0 → ∀ d ∈ deps0, d ∈ graphKeys g0 :=
    fun p deps0 h => (hdeps0 p deps0 h).2
  have hsub : SubInv g0 g0 [] := by
    intro p deps h
    exact ⟨deps, h, List.Sublist.refl _, fun d hd hnd => absurd hd hnd⟩
  have hsound : Sound g0 [] := by
    intro p deps0 h hp
    simp at hp
  rcases peel_spec g0 rank hkeys hd2 hacyc (gsize g0 + 1) g0 []
    (by omega) hsub hsound (by simp) with ⟨out, h1, h2, h3⟩
  refine ⟨out, h1, h2, (List.Perm.nodup_iff h2).mpr hkeys, ?_⟩
  intro p deps0 d h hd
  have hp : p ∈ out := h2.mem_iff.mpr (List.mem_map.mpr ⟨(p, deps0), h, rfl⟩)
  exact h3 p deps0 h hp d hd

/-- C8: on every acyclic (rank-ordered) duplicate-free graph, the peeling
sequencer terminates within `gsize + 1` rounds and its output is a valid
linearization: it is a permutation of the ordered packages with no
duplicates, and for every edge (dependent, dependency) the dependency
appears in the output before the dependent. -/
theorem kahn_linearization (g0 : List (String × List String))
    (rank : String → Nat)
    (hkeys : (graphKeys g0).Nodup)
    (hdeps0 : ∀ p deps0, (p, deps0) ∈ g0 →
      deps0.Nodup ∧ ∀ d ∈ deps0, d ∈ graphKeys g0)
    (hacyc : ∀ p deps0, (p, deps0) ∈ g0 → ∀ d ∈ deps0, rank d < rank p) :
    ∃ out, peel (gsize g0 + 1) g0 [] = some out ∧
      out.Perm (graphKeys g0) ∧ out.Nodup ∧
      ∀ p deps0 d, (p, deps0) ∈ g0 → d ∈ deps0 → Before out d p :=
  kahn_core g0 rank hkeys hdeps0 hacyc

/-- A sample acyclic two-package graph for the sequencer. -/
def demoGraph : List (String × List String) := [("a", []), ("b", ["a"])]

/-- A topological rank for `demoGraph`. -/
def demoRank : String → Nat := fun s => if s = "b" then 1 else 0

theorem kahn_linearization_witness :
    ∃ out, peel (gsize demoGraph + 1) demoGraph [] = some out ∧
      out.Perm (graphKeys demoGraph) ∧ out.Nodup ∧
      ∀ p deps0 d, (p, deps0) ∈ demoGraph → d ∈ deps0 → Before out d p := by
  refine kahn_linearization demoGraph demoRank (by decide) ?_ ?_
  · intro p deps0 h
    simp only [demoGraph, List.mem_cons, List.mem_singleton,
      Prod.mk.injEq, List.not_mem_nil, or_false] at h
    rcases h with ⟨rfl, rfl⟩ | ⟨rfl, rfl⟩
    · exact ⟨by decide, by intro d hd; simp at hd⟩
    · refine ⟨by decide, ?_⟩
      intro d hd
      rcases List.mem_singleton.mp hd with rfl
      decide
  · intro p deps0 h
    simp only [demoGraph, List.mem_cons, List.mem_singleton,
      Prod.mk.injEq, List.not_mem_nil, or_false] at h
    rcases h with ⟨rfl, rfl⟩ | ⟨rfl, rfl⟩
    · intro d hd
      simp at hd
    · intro d hd
      rcases List.mem_singleton.mp hd with rfl
      decide

/-! ## Execution order of the pipeline (`test`, `pac.py` lines 377-417):
the peeled order of the CHANGED packages followed by the affected packages
(`for package in order + affected_packages`). -/

theorem graphKeys_buildGraph (changed : List Pkg) :
    graphKeys (buildGraph changed) = changed.map Pkg.name := by
  simp [graphKeys, buildGraph]

theorem mem_buildGraph (changed : List Pkg) (p : String) (deps : List String)
    (h : (p, deps) ∈ buildGraph changed) :
    ∃ q, q ∈ changed ∧ q.name = p ∧
      deps = (q.requires.map Dep.name).filter
        (fun d => d ∈ changed.map Pkg.name) := by
  rcases List.mem_map.mp h with ⟨q, hq, heq⟩
  cases heq
  exact ⟨q, hq, rfl, rfl⟩

/-- C3 counterexample: with changed `alpha` and affected `beta`, the
sequencer's input graph holds only the changed package, so its output is
`["alpha"]` — it does not order the union of the changed and affected sets,
which contains `beta`. -/
theorem sequencer_scope_counterexample :
    peel 2 (buildGraph [alphaPkg]) [] = some ["alpha"] ∧
    "beta" ∈ (computeAffected [betaPkg] [alphaPkg]).map Pkg.name ∧
    "beta" ∉ ["alpha"] := by
  refine ⟨rfl, ?_, by decide⟩
  rw [show (computeAffected [betaPkg] [alphaPkg]).map Pkg.name = ["beta"]
    from rfl]
  exact List.mem_singleton_self "beta"

/-- C3 (amended): the topological sequencer orders only the CHANGED package
set; the orchestrator then executes that order followed by the affected
packages appended after it. Hence every package of the union
changed-plus-affected is executed, and every changed package's
in-repository dependency among the changed set is executed before it
(ordering guarantees do not extend to dependencies between affected
packages). -/
theorem execution_order_spec (changed pending : List Pkg)
    (rank : String → Nat)
    (hkeys : (changed.map Pkg.name).Nodup)
    (hreq : ∀ q ∈ changed, (q.requires.map Dep.name).Nodup)
    (hacyc : ∀ q ∈ changed, ∀ d ∈ q.requires,
      d.name ∈ changed.map Pkg.name → rank d.name < rank q.name) :
    ∃ out, peel (gsize (buildGraph changed) + 1) (buildGraph changed) [] =
        some out ∧
      out.Perm (changed.map Pkg.name) ∧
      (∀ x, x ∈ out ++ (computeAffected pending changed).map Pkg.name ↔
        (x ∈ changed.map Pkg.name ∨
          x ∈ (computeAffected pending changed).map Pkg.name)) ∧
      (∀ q ∈ changed, ∀ d ∈ q.requires, d.name ∈ changed.map Pkg.name →
        Before (out ++ (computeAffected pending changed).map Pkg.name)
          d.name q.name) := by
  have hkeys2 : (graphKeys (buildGraph changed)).Nodup := by
    rw [graphKeys_buildGraph]
    exact hkeys
  have hdeps0 : ∀ p deps0, (p, deps0) ∈ buildGraph changed →
      deps0.Nodup ∧ ∀ d ∈ deps0, d ∈ graphKeys (buildGraph changed) := by
    intro p deps0 h
    rcases mem_buildGraph changed p deps0 h with ⟨q, hq, _, rfl⟩
    constructor
    · exact (hreq q hq).filter _
    · intro d hd
      rw [graphKeys_buildGraph]
      have := (List.mem_filter.mp hd).2
      simpa using this
  have hacyc2 : ∀ p deps0, (p, deps0) ∈ buildGraph changed →
      ∀ d ∈ deps0, rank d < rank p := by
    intro p deps0 h d hd
    rcases mem_buildGraph changed p deps0 h with ⟨q, hq, rfl, rfl⟩
    have hd1 := (List.mem_filter.mp hd).1
    have hd2 : d ∈ changed.map Pkg.name := by
      simpa using (List.mem_filter.mp hd).2
    rcases List.mem_map.mp hd1 with ⟨dep, hdep, rfl⟩
    exact hacyc q hq dep hdep hd2
  rcases kahn_core (buildGraph changed) rank hkeys2 hdeps0 hacyc2
    with ⟨out, h1, h2, h3, h4⟩
  rw [graphKeys_buildGraph] at h2
  refine ⟨out, h1, h2, ?_, ?_⟩
  · intro x
    rw [List.mem_append, h2.mem_iff]
  · intro q hq d hd hdn
    have hentry : (q.name, (q.requires.map Dep.name).filter
        (fun d2 => d2 ∈ changed.map Pkg.name)) ∈ buildGraph changed :=
      List.mem_map.mpr ⟨q, hq, rfl⟩
    have hdmem : d.name ∈ (q.requires.map Dep.name).filter
        (fun d2 => d2 ∈ changed.map Pkg.name) := by
      refine List.mem_filter.mpr ⟨List.mem_map.mpr ⟨d, hd, rfl⟩, ?_⟩
      simpa using hdn
    have hbef := h4 q.name _ d.name hentry hdmem
    exact Before.append_right out _ d.name q.name hbef

theorem execution_order_spec_witness :
    ∃ out, peel (gsize (buildGraph [alphaPkg]) + 1) (buildGraph [alphaPkg]) [] =
        some out ∧
      out.Perm ([alphaPkg].map Pkg.name) ∧
      (∀ x, x ∈ out ++ (computeAffected [betaPkg] [alphaPkg]).map Pkg.name ↔
        (x ∈ [alphaPkg].map Pkg.name ∨
          x ∈ (computeAffected [betaPkg] [alphaPkg]).map Pkg.name)) ∧
      (∀ q ∈ [alphaPkg], ∀ d ∈ q.requires, d.name ∈ [alphaPkg].map Pkg.name →
        Before (out ++ (computeAffected [betaPkg] [alphaPkg]).map Pkg.name)
          d.name q.name) := by
  refine execution_order_spec [alphaPkg] [betaPkg] (fun _ => 0)
    (by decide) ?_ ?_
  · intro q hq
    rcases List.mem_singleton.mp hq with rfl
    decide
  · intro q hq d hd
    rcases List.mem_singleton.mp hq with rfl
    simp [alphaPkg] at hd
